import Mathlib

/-!
Shallow embedding of the CKA notebook (src/CKA.ipynb): the linear kernel,
the RBF kernel with median-heuristic bandwidth, HSIC, and CKA, modelled
over the real numbers.

Modelling conventions:
* numpy arrays of floats become real matrices indexed by `Fin`;
* a raised Python exception (numpy shape error, `ZeroDivisionError`,
  `math.sqrt` domain error) is modelled by returning `none`;
* `np.sqrt` and `math.sqrt` are modelled by `Real.sqrt` (the notebook calls
  `math.sqrt` without an `import math` line, but its recorded outputs show
  the intended semantics, so the arithmetic is modelled as real square root);
* numpy's silent NaN/Inf results (e.g. dividing a numpy scalar by `0.0`)
  do not raise, so they are modelled by total real arithmetic, in which
  `x / 0 = 0`; the claims about error signalling only rely on such calls
  returning a value rather than an error.
-/

open Matrix

namespace CKAModel

/-- Median of a multiset of reals, as computed by numpy's `median`:
sort ascending; take the middle element when the length is odd, the mean of
the two middle elements when it is even. -/
noncomputable def npMedian (m : Multiset ℝ) : ℝ :=
  let l := m.sort (· ≤ ·)
  if l.length % 2 = 1 then l.getD (l.length / 2) 0
  else (l.getD (l.length / 2 - 1) 0 + l.getD (l.length / 2) 0) / 2

/-- Linear kernel from the notebook: `np.matmul(X, Y.T)`.  `np.matmul`
succeeds exactly when the inner dimensions agree, i.e. when `X` and `Y`
have the same number of columns; the shape error it otherwise raises is
modelled by `none`. -/
noncomputable def linear_kernel {n p m q : ℕ} (X : Matrix (Fin n) (Fin p) ℝ)
    (Y : Matrix (Fin m) (Fin q) ℝ) : Option (Matrix (Fin n) (Fin m) ℝ) :=
  if h : p = q then some (X * (Yᵀ.submatrix (Fin.cast h) id)) else none

/-- RBF kernel from the notebook, for same-shaped `X` and `Y` (the only
shapes for which the numpy broadcasting in `KX = np.diag(GX) - GX +
(np.diag(GX) - GX).T` is well-formed).  `GX = np.dot(X, Y.T)`;
`KX[i,j] = (GX[j,j] - GX[i,j]) + (GX[i,i] - GX[j,i])`.  When `sigma` is not
supplied, the bandwidth is the square root of the median of the strictly
nonzero entries of `KX`; numpy's median of an empty selection is NaN (not a
real number, modelled `none`) and `math.sqrt` of a negative median raises
(modelled `none`).  The scaling step `KX *= -0.5 / (sigma * sigma)` raises
`ZeroDivisionError` when `sigma * sigma = 0` (modelled `none`); finally the
entrywise exponential is returned. -/
noncomputable def rbf {n p : ℕ} (X Y : Matrix (Fin n) (Fin p) ℝ)
    (sigma : Option ℝ) : Option (Matrix (Fin n) (Fin n) ℝ) :=
  let GX := X * Yᵀ
  let KX : Matrix (Fin n) (Fin n) ℝ :=
    Matrix.of fun i j => (GX j j - GX i j) + (GX i i - GX j i)
  let scale : ℝ → Option (Matrix (Fin n) (Fin n) ℝ) := fun s =>
    if s * s = 0 then none
    else some (Matrix.of fun i j => Real.exp (KX i j * (-0.5 / (s * s))))
  match sigma with
  | some s => scale s
  | none =>
      let vals : Multiset ℝ :=
        ((Finset.univ : Finset (Fin n × Fin n)).val.map
          (fun ij => KX ij.1 ij.2)).filter (fun v => v ≠ 0)
      if vals = 0 then none
      else if npMedian vals < 0 then none
      else scale (Real.sqrt (npMedian vals))

/-- Centering matrix `H = np.identity(n) - (1/n) * np.ones((n, n))` built
inside `HSIC`. -/
noncomputable def centerH (n : ℕ) : Matrix (Fin n) (Fin n) ℝ :=
  1 - ((n : ℝ))⁻¹ • Matrix.of (fun _ _ => (1 : ℝ))

/-- HSIC from the notebook.  `n` is `K.shape[0]`; the result is
`1/((n-1)**2) * np.trace(np.matmul(KH, LH))` with `KH = K·H`, `LH = L·H`.
The Python divisions `1./n` and `1./((n-1)**2)` raise `ZeroDivisionError`
when `n = 0`, respectively `n = 1`; both are modelled by `none`. -/
noncomputable def HSIC {n : ℕ} (K L : Matrix (Fin n) (Fin n) ℝ) : Option ℝ :=
  if n = 0 then none
  else
    let KH := K * centerH n
    let LH := L * centerH n
    if (n - 1) ^ 2 = 0 then none
    else some ((((n - 1) ^ 2 : ℕ) : ℝ)⁻¹ * Matrix.trace (KH * LH))

/-- Type of the kernel argument of `CKA`: the notebook calls `kernel(X, X)`
on an n×p matrix and expects an n×n Gram matrix (or a raised error,
modelled `none`). -/
def KernelFn : Type :=
  (n p : ℕ) → Matrix (Fin n) (Fin p) ℝ → Matrix (Fin n) (Fin p) ℝ →
    Option (Matrix (Fin n) (Fin n) ℝ)

/-- The linear kernel packaged as a `KernelFn` (the notebook's default). -/
noncomputable def linearK : KernelFn := fun _ _ X Y => linear_kernel X Y

/-- The RBF kernel packaged as a `KernelFn`: passing `rbf` as the kernel
argument leaves `sigma` at its default `None`. -/
noncomputable def rbfK : KernelFn := fun _ _ X Y => rbf X Y none

/-- CKA from the notebook: `K = kernel(X, X)`, `L = kernel(Y, Y)`,
`HSIC(K, L) / (np.sqrt(HSIC(K, K)) * np.sqrt(HSIC(L, L)))`, with the
linear kernel as the default when no kernel is given.  The final division
of numpy scalars does not raise (division by zero silently yields NaN/Inf),
so it is modelled by total real division. -/
noncomputable def CKA {n p q : ℕ} (X : Matrix (Fin n) (Fin p) ℝ)
    (Y : Matrix (Fin n) (Fin q) ℝ) (kernel : Option KernelFn) : Option ℝ :=
  let k := kernel.getD linearK
  do
    let K ← k n p X X
    let L ← k n q Y Y
    let hs ← HSIC K L
    let vK ← HSIC K K
    let vL ← HSIC L L
    return hs / (Real.sqrt vK * Real.sqrt vL)

/-- Squared-distance matrix computed by `rbf` on a diagonal call `rbf(X, X)`:
with `G = X·Xᵀ`, `D[i,j] = G[i,i] − 2·G[i,j] + G[j,j]`. -/
noncomputable def sqdist {n p : ℕ} (X : Matrix (Fin n) (Fin p) ℝ) :
    Matrix (Fin n) (Fin n) ℝ :=
  Matrix.of fun i j => (X * Xᵀ) i i - 2 * (X * Xᵀ) i j + (X * Xᵀ) j j

/-- Multiset of strictly nonzero entries of the squared-distance matrix,
the selection `KX[KX != 0]` made by `rbf` on a diagonal call. -/
noncomputable def nzdists {n p : ℕ} (X : Matrix (Fin n) (Fin p) ℝ) :
    Multiset ℝ :=
  ((Finset.univ : Finset (Fin n × Fin n)).val.map
    (fun ij => sqdist X ij.1 ij.2)).filter (fun v => v ≠ 0)

/-- On equal column counts the dimension check of `np.matmul` passes and the
linear kernel is the plain product `X · Yᵀ`. -/
lemma linear_kernel_same {n p m : ℕ} (X : Matrix (Fin n) (Fin p) ℝ)
    (Y : Matrix (Fin m) (Fin p) ℝ) : linear_kernel X Y = some (X * Yᵀ) := by
  unfold linear_kernel
  rw [dif_pos rfl]
  have hcast : (Fin.cast (rfl : p = p)) = (id : Fin p → Fin p) := by
    funext x
    rfl
  rw [hcast, Matrix.submatrix_id_id]

/-- For `n ≥ 2` both guards of `HSIC` pass and the computed value is exposed. -/
lemma HSIC_eq {n : ℕ} (K L : Matrix (Fin n) (Fin n) ℝ) (hn : 2 ≤ n) :
    HSIC K L = some ((((n - 1) ^ 2 : ℕ) : ℝ)⁻¹ *
      Matrix.trace ((K * centerH n) * (L * centerH n))) := by
  unfold HSIC
  have h2 : (n - 1) ^ 2 ≠ 0 := (pow_pos (by omega : 0 < n - 1) 2).ne'
  rw [if_neg (by omega), if_neg h2]

/-- On n×n inputs with `n ≤ 1` either the `1./n` or the `1./((n-1)**2)`
division of `HSIC` raises, modelled `none`. -/
lemma HSIC_none_of_le_one {n : ℕ} (K L : Matrix (Fin n) (Fin n) ℝ)
    (hn : n ≤ 1) : HSIC K L = none := by
  interval_cases n <;> simp [HSIC]

/-- A `some` result of `HSIC` forces `n ≥ 2` and equals the trace formula. -/
lemma HSIC_eq_some {n : ℕ} {K L : Matrix (Fin n) (Fin n) ℝ} {c : ℝ}
    (h : HSIC K L = some c) :
    2 ≤ n ∧ c = (((n - 1) ^ 2 : ℕ) : ℝ)⁻¹ *
      Matrix.trace ((K * centerH n) * (L * centerH n)) := by
  by_cases h2 : 2 ≤ n
  · rw [HSIC_eq K L h2] at h
    exact ⟨h2, (Option.some.inj h).symm⟩
  · rw [HSIC_none_of_le_one K L (by omega)] at h
    cases h

/-- HSIC is symmetric in its two arguments, including on the error paths. -/
lemma HSIC_comm {n : ℕ} (K L : Matrix (Fin n) (Fin n) ℝ) :
    HSIC K L = HSIC L K := by
  simp only [HSIC]
  rw [Matrix.trace_mul_comm]

/-- Unfolding of a fully successful `CKA` call. -/
lemma CKA_run {n p q : ℕ} (X : Matrix (Fin n) (Fin p) ℝ)
    (Y : Matrix (Fin n) (Fin q) ℝ) (k : KernelFn)
    (K L : Matrix (Fin n) (Fin n) ℝ) (hs vK vL : ℝ)
    (hK : k n p X X = some K) (hL : k n q Y Y = some L)
    (hh : HSIC K L = some hs) (hvK : HSIC K K = some vK)
    (hvL : HSIC L L = some vL) :
    CKA X Y (some k) = some (hs / (Real.sqrt vK * Real.sqrt vL)) := by
  simp [CKA, hK, hL, hh, hvK, hvL]

/-- C2: for every pair of n×n matrices `K`, `L` with `n ≥ 2`, `HSIC(K, L)`
returns `trace(K·H·L·H) / (n−1)²` where `H = I − (1/n)·ones` (`centerH n`),
the same `H`, built from `n`, multiplying both `K` and `L`. -/
theorem C2_hsic_formula {n : ℕ} (K L : Matrix (Fin n) (Fin n) ℝ)
    (hn : 2 ≤ n) :
    HSIC K L = some
      (Matrix.trace (K * centerH n * L * centerH n) / (((n - 1) ^ 2 : ℕ) : ℝ)) := by
  rw [HSIC_eq K L hn]
  congr 1
  rw [inv_mul_eq_div]
  congr 1
  rw [Matrix.mul_assoc (K * centerH n) L (centerH n)]

/-- Witness for C2 at a concrete input: `n = 2`, identity matrices. -/
theorem C2_hsic_formula_witness :
    HSIC (1 : Matrix (Fin 2) (Fin 2) ℝ) 1 = some
      (Matrix.trace ((1 : Matrix (Fin 2) (Fin 2) ℝ) * centerH 2 * 1 * centerH 2) /
        (((2 - 1) ^ 2 : ℕ) : ℝ)) :=
  C2_hsic_formula 1 1 (by norm_num)

/-- C5 fails as stated: with 2×1 and 3×1 inputs, the row counts differ (2 vs 3)
but the linear kernel succeeds, because `np.matmul(X, Y.T)` only checks the
inner dimensions (the column counts), which here agree. -/
theorem C5_counterexample :
    linear_kernel (Matrix.of ![![(1 : ℝ)], ![2]])
      (Matrix.of ![![(1 : ℝ)], ![2], ![3]]) ≠ none := by
  rw [linear_kernel_same]
  simp

/-- C5 amended: the linear kernel fails (shape error of `np.matmul`) exactly
when the two inputs do not share the same number of columns; row counts are
never compared. -/
theorem C5_amended {n p m q : ℕ} (X : Matrix (Fin n) (Fin p) ℝ)
    (Y : Matrix (Fin m) (Fin q) ℝ) :
    linear_kernel X Y = none ↔ p ≠ q := by
  unfold linear_kernel
  rcases eq_or_ne p q with h | h
  · subst h
    simp
  · rw [dif_neg h]
    simp [h]

/-- C6: `HSIC` on n×n inputs with `n ≤ 1` (in particular `n = 1`) signals an
error (the `ZeroDivisionError` of `1./n` for `n = 0`, or of `1./((n-1)**2)`
for `n = 1`), modelled `none`, rather than returning any real number. -/
theorem C6_hsic_degenerate {n : ℕ} (K L : Matrix (Fin n) (Fin n) ℝ)
    (hn : n ≤ 1) : HSIC K L = none :=
  HSIC_none_of_le_one K L hn

/-- Witness for C6 at a concrete input: 1×1 matrices. -/
theorem C6_hsic_degenerate_witness :
    HSIC (Matrix.of ![![(5 : ℝ)]]) (Matrix.of ![![(7 : ℝ)]]) = none :=
  C6_hsic_degenerate _ _ (by norm_num)

/-- C10: calling the RBF kernel with a supplied bandwidth `sigma = 0` fails
(ZeroDivisionError at `KX *= -0.5 / (sigma * sigma)`), modelled `none`,
for every pair of inputs; the division is not guarded against `sigma = 0`. -/
theorem C10_rbf_sigma_zero {n p : ℕ} (X Y : Matrix (Fin n) (Fin p) ℝ) :
    rbf X Y (some 0) = none := by
  simp [rbf]

/-- C7: CKA is symmetric: swapping `X` and `Y` swaps `HSIC(K,L)` into
`HSIC(L,K)` (equal by cyclicity of the trace) and swaps the two variance
factors of the denominator (equal by commutativity), so
`cka(X, Y, kernel) = cka(Y, X, kernel)` — exactly, including on all error
paths, for every kernel argument and also for the default kernel. -/
theorem C7_cka_symmetry {n p q : ℕ} (X : Matrix (Fin n) (Fin p) ℝ)
    (Y : Matrix (Fin n) (Fin q) ℝ) (kernel : Option KernelFn) :
    CKA X Y kernel = CKA Y X kernel := by
  unfold CKA
  cases hX : kernel.getD linearK n p X X with
  | none =>
      cases hY : kernel.getD linearK n q Y Y with
      | none => simp [hX, hY]
      | some L => simp [hX, hY]
  | some K =>
      cases hY : kernel.getD linearK n q Y Y with
      | none => simp [hX, hY]
      | some L =>
          simp only [hX, hY, Option.bind_eq_bind', Option.some_bind']
          rw [HSIC_comm L K]
          cases h1 : HSIC K L with
          | none => simp
          | some hs =>
              simp only [Option.some_bind]
              cases h2 : HSIC K K with
              | none =>
                  cases h3 : HSIC L L with
                  | none => simp
                  | some vL => simp
              | some vK =>
                  cases h3 : HSIC L L with
                  | none => simp
                  | some vL => simp [mul_comm]

/-- The constant 2×1 matrix sent through the linear kernel yields the all-ones
2×2 Gram matrix. -/
lemma const_linearK :
    linearK 2 1 (Matrix.of ![![(1 : ℝ)], ![1]]) (Matrix.of ![![(1 : ℝ)], ![1]]) =
      some (Matrix.of ![![(1 : ℝ), 1], ![1, 1]]) := by
  unfold linearK
  rw [linear_kernel_same]
  congr 1
  ext i j
  fin_cases i <;> fin_cases j <;>
    simp [Matrix.mul_apply, Matrix.transpose_apply, Fin.sum_univ_one,
      Matrix.vecHead, Matrix.vecTail]

/-- Centering the all-ones Gram matrix gives the zero matrix. -/
lemma const_mul_centerH :
    Matrix.of ![![(1 : ℝ), 1], ![1, 1]] * centerH 2 = 0 := by
  ext i j
  fin_cases i <;> fin_cases j <;>
    simp [centerH, Matrix.mul_apply, Fin.sum_univ_two, Matrix.one_apply] <;>
    norm_num

/-- The all-ones Gram matrix has zero self-HSIC: a degenerate variance. -/
lemma const_HSIC :
    HSIC (Matrix.of ![![(1 : ℝ), 1], ![1, 1]])
      (Matrix.of ![![(1 : ℝ), 1], ![1, 1]]) = some 0 := by
  rw [HSIC_eq _ _ (by norm_num), const_mul_centerH]
  simp

/-- C4 fails as stated: on the constant matrix `X = [[1],[1]]` the linear
kernel yields the all-ones Gram matrix, whose self-HSIC (the variance of the
representation under the kernel) is `0` — a degenerate input — yet `CKA`
returns a value (`some`) instead of signalling an error: the division is
performed unguarded (in floating point it silently yields NaN; in this real
model, where `x / 0 = 0`, the returned value is `0`). -/
theorem C4_counterexample :
    HSIC (Matrix.of ![![(1 : ℝ), 1], ![1, 1]])
        (Matrix.of ![![(1 : ℝ), 1], ![1, 1]]) = some 0 ∧
    CKA (Matrix.of ![![(1 : ℝ)], ![1]]) (Matrix.of ![![(1 : ℝ)], ![1]]) none =
      some 0 := by
  refine ⟨const_HSIC, ?_⟩
  have h := CKA_run (Matrix.of ![![(1 : ℝ)], ![1]]) (Matrix.of ![![(1 : ℝ)], ![1]])
    linearK (Matrix.of ![![(1 : ℝ), 1], ![1, 1]]) (Matrix.of ![![(1 : ℝ), 1], ![1, 1]])
    0 0 0 const_linearK const_linearK const_HSIC const_HSIC const_HSIC
  have hdef : CKA (Matrix.of ![![(1 : ℝ)], ![1]]) (Matrix.of ![![(1 : ℝ)], ![1]]) none =
      CKA (Matrix.of ![![(1 : ℝ)], ![1]]) (Matrix.of ![![(1 : ℝ)], ![1]]) (some linearK) := by
    simp [CKA]
  rw [hdef, h]
  norm_num

/-- C4 amended: `CKA` performs the final division unguarded.  Whenever the
kernel and HSIC sub-calls succeed it returns the raw quotient
`hsic / (sqrt(var_x) · sqrt(var_y))` — with no check that `var_x` or `var_y`
is nonzero — so a degenerate input produces a silently returned value
(NaN/Inf under IEEE semantics) rather than a signalled error. -/
theorem C4_amended {n p q : ℕ} (X : Matrix (Fin n) (Fin p) ℝ)
    (Y : Matrix (Fin n) (Fin q) ℝ) (k : KernelFn)
    (K L : Matrix (Fin n) (Fin n) ℝ) (hs vK vL : ℝ)
    (hK : k n p X X = some K) (hL : k n q Y Y = some L)
    (hh : HSIC K L = some hs) (hvK : HSIC K K = some vK)
    (hvL : HSIC L L = some vL) :
    CKA X Y (some k) = some (hs / (Real.sqrt vK * Real.sqrt vL)) :=
  CKA_run X Y k K L hs vK vL hK hL hh hvK hvL

/-- Witness for the amended C4 at the degenerate constant input: the
variances are `0` and the raw quotient `0 / (√0 · √0)` is returned. -/
theorem C4_amended_witness :
    CKA (Matrix.of ![![(1 : ℝ)], ![1]]) (Matrix.of ![![(1 : ℝ)], ![1]])
      (some linearK) = some (0 / (Real.sqrt 0 * Real.sqrt 0)) :=
  C4_amended _ _ linearK _ _ 0 0 0 const_linearK const_linearK
    const_HSIC const_HSIC const_HSIC

/-- C1: self-similarity.  For any kernel that succeeds on `(X, X)` with Gram
matrix `K`, if the variance `HSIC(K, K)` is a (strictly positive) real
number, then `CKA(X, X, kernel) = 1` exactly: both arguments produce the
same Gram matrix, so the numerator equals `HSIC(K, K)` and the denominator
equals `√HSIC(K,K) · √HSIC(K,K)`. -/
theorem C1_self_similarity {n p : ℕ} (X : Matrix (Fin n) (Fin p) ℝ)
    (k : KernelFn) (K : Matrix (Fin n) (Fin n) ℝ) (h : ℝ)
    (hK : k n p X X = some K) (hh : HSIC K K = some h) (hpos : 0 < h) :
    CKA X X (some k) = some 1 := by
  rw [CKA_run X X k K K h h h hK hK hh hh hh]
  rw [Real.mul_self_sqrt hpos.le, div_self hpos.ne']

/-- The 2×2 identity data matrix has Gram matrix `1` under the linear kernel. -/
lemma id_linearK :
    linearK 2 2 (Matrix.of ![![(1 : ℝ), 0], ![0, 1]])
      (Matrix.of ![![(1 : ℝ), 0], ![0, 1]]) =
      some (1 : Matrix (Fin 2) (Fin 2) ℝ) := by
  unfold linearK
  rw [linear_kernel_same]
  congr 1
  ext i j
  fin_cases i <;> fin_cases j <;>
    simp [Matrix.mul_apply, Matrix.transpose_apply, Fin.sum_univ_two,
      Matrix.one_apply, Matrix.vecHead, Matrix.vecTail]

/-- The identity Gram matrix of size 2 has self-HSIC equal to `1`. -/
lemma HSIC_one_two :
    HSIC (1 : Matrix (Fin 2) (Fin 2) ℝ) 1 = some 1 := by
  rw [HSIC_eq _ _ (by norm_num), Matrix.one_mul]
  norm_num [Matrix.trace, Matrix.diag, Matrix.mul_apply, centerH,
    Fin.sum_univ_two, Matrix.one_apply]

/-- Witness for C1 at a concrete non-degenerate input: the 2×2 identity data
matrix with the linear kernel. -/
theorem C1_self_similarity_witness :
    CKA (Matrix.of ![![(1 : ℝ), 0], ![0, 1]])
      (Matrix.of ![![(1 : ℝ), 0], ![0, 1]]) (some linearK) = some 1 :=
  C1_self_similarity _ linearK 1 1 id_linearK HSIC_one_two (by norm_num)

/-- The Gram matrix `X·Xᵀ` is symmetric. -/
lemma gram_symm {n p : ℕ} (X : Matrix (Fin n) (Fin p) ℝ) (i j : Fin n) :
    (X * Xᵀ) j i = (X * Xᵀ) i j := by
  have h : (X * Xᵀ)ᵀ = X * Xᵀ := by
    rw [Matrix.transpose_mul, Matrix.transpose_transpose]
  calc (X * Xᵀ) j i = (X * Xᵀ)ᵀ i j := rfl
  _ = (X * Xᵀ) i j := by rw [h]

/-- On a diagonal call the matrix `KX` built by `rbf` is the squared-distance
matrix. -/
lemma KX_eq_sqdist {n p : ℕ} (X : Matrix (Fin n) (Fin p) ℝ) :
    (Matrix.of fun i j => ((X * Xᵀ) j j - (X * Xᵀ) i j) +
      ((X * Xᵀ) i i - (X * Xᵀ) j i) : Matrix (Fin n) (Fin n) ℝ) = sqdist X := by
  ext i j
  simp only [Matrix.of_apply, sqdist]
  rw [gram_symm X i j]
  ring

/-- Entry formula: squared distances are sums of squared differences. -/
lemma sqdist_eq_sum {n p : ℕ} (X : Matrix (Fin n) (Fin p) ℝ) (i j : Fin n) :
    sqdist X i j = ∑ k, (X i k - X j k) ^ 2 := by
  simp only [sqdist, Matrix.of_apply, Matrix.mul_apply, Matrix.transpose_apply]
  rw [Finset.mul_sum, ← Finset.sum_sub_distrib, ← Finset.sum_add_distrib]
  exact Finset.sum_congr rfl fun k _ => by ring

/-- Squared distances are nonnegative. -/
lemma sqdist_nonneg {n p : ℕ} (X : Matrix (Fin n) (Fin p) ℝ) (i j : Fin n) :
    0 ≤ sqdist X i j := by
  rw [sqdist_eq_sum]
  exact Finset.sum_nonneg fun k _ => sq_nonneg _

/-- The diagonal of the squared-distance matrix vanishes. -/
lemma sqdist_diag {n p : ℕ} (X : Matrix (Fin n) (Fin p) ℝ) (i : Fin n) :
    sqdist X i i = 0 := by
  simp only [sqdist, Matrix.of_apply]
  ring

/-- Every member of the nonzero-distance selection is strictly positive. -/
lemma nzdists_pos {n p : ℕ} (X : Matrix (Fin n) (Fin p) ℝ) :
    ∀ x ∈ nzdists X, 0 < x := by
  intro x hx
  rw [nzdists, Multiset.mem_filter] at hx
  obtain ⟨hmem, hne⟩ := hx
  rw [Multiset.mem_map] at hmem
  obtain ⟨ij, _, rfl⟩ := hmem
  exact lt_of_le_of_ne (sqdist_nonneg X ij.1 ij.2) (Ne.symm hne)

/-- The numpy median of a nonempty multiset of strictly positive reals is
strictly positive. -/
lemma npMedian_pos {m : Multiset ℝ} (hne : m ≠ 0) (hpos : ∀ x ∈ m, 0 < x) :
    0 < npMedian m := by
  have hlen : (Multiset.sort (· ≤ ·) m).length = Multiset.card m :=
    Multiset.length_sort _
  have hcard : 0 < Multiset.card m := Multiset.card_pos.mpr hne
  have hlpos : 0 < (Multiset.sort (· ≤ ·) m).length := by rw [hlen]; exact hcard
  have hmem : ∀ i, i < (Multiset.sort (· ≤ ·) m).length →
      0 < (Multiset.sort (· ≤ ·) m).getD i 0 := by
    intro i h
    rw [List.getD_eq_getElem _ _ h]
    exact hpos _ ((Multiset.mem_sort _).mp (List.getElem_mem h))
  simp only [npMedian]
  split_ifs with hodd
  · exact hmem _ (Nat.div_lt_self hlpos one_lt_two)
  · have hidx : (Multiset.sort (· ≤ ·) m).length / 2 <
        (Multiset.sort (· ≤ ·) m).length := Nat.div_lt_self hlpos one_lt_two
    have h1 := hmem _ (lt_of_le_of_lt
      (Nat.sub_le ((Multiset.sort (· ≤ ·) m).length / 2) 1) hidx)
    have h2 := hmem _ hidx
    positivity

/-- Scaling algebra: the notebook's `KX * (-0.5/(s*s))` equals the spec form
`-KX/(2·s²)` whenever `s ≠ 0`. -/
lemma scale_algebra (a s : ℝ) (hs : s ≠ 0) :
    a * (-0.5 / (s * s)) = -a / (2 * s ^ 2) := by
  field_simp
  ring

/-- C3: on a diagonal call with no `sigma` supplied and a nonempty selection
of strictly nonzero squared distances, `rbf` computes and uses the bandwidth
`σ = sqrt(median of the strictly nonzero entries of D)` and returns the Gram
matrix `exp(-D[i,j] / (2σ²))`. -/
theorem C3_median_bandwidth {n p : ℕ} (X : Matrix (Fin n) (Fin p) ℝ)
    (hne : nzdists X ≠ 0) :
    rbf X X none = some (Matrix.of fun i j =>
      Real.exp (-(sqdist X i j) /
        (2 * Real.sqrt (npMedian (nzdists X)) ^ 2))) := by
  have hmpos : 0 < npMedian (nzdists X) := npMedian_pos hne (nzdists_pos X)
  have hspos : 0 < Real.sqrt (npMedian (nzdists X)) := Real.sqrt_pos.mpr hmpos
  simp only [rbf]
  rw [KX_eq_sqdist]
  have hv : (((Finset.univ : Finset (Fin n × Fin n)).val.map
      (fun ij => sqdist X ij.1 ij.2)).filter (fun v => v ≠ 0)) = nzdists X := rfl
  rw [hv, if_neg hne, if_neg (not_lt.mpr hmpos.le),
    if_neg (mul_ne_zero hspos.ne' hspos.ne')]
  congr 1
  ext i j
  simp only [Matrix.of_apply]
  rw [scale_algebra _ _ hspos.ne']

/-- Witness for C3 at a concrete input: `X = [[0],[1]]`, whose
squared-distance matrix `[[0,1],[1,0]]` has nonzero entries `{1, 1}`. -/
theorem C3_median_bandwidth_witness :
    rbf (Matrix.of ![![(0 : ℝ)], ![1]]) (Matrix.of ![![(0 : ℝ)], ![1]]) none =
      some (Matrix.of fun i j =>
        Real.exp (-(sqdist (Matrix.of ![![(0 : ℝ)], ![1]]) i j) /
          (2 * Real.sqrt (npMedian (nzdists (Matrix.of ![![(0 : ℝ)], ![1]]))) ^ 2))) := by
  refine C3_median_bandwidth _ ?_
  have h1 : (1 : ℝ) ∈ nzdists (Matrix.of ![![(0 : ℝ)], ![1]]) := by
    rw [nzdists, Multiset.mem_filter]
    refine ⟨?_, by norm_num⟩
    rw [Multiset.mem_map]
    refine ⟨(0, 1), by simp, ?_⟩
    simp [sqdist, Matrix.mul_apply, Matrix.transpose_apply, Fin.sum_univ_one,
      Matrix.vecHead, Matrix.vecTail]
  intro h0
  rw [h0] at h1
  exact Multiset.not_mem_zero 1 h1

/-- C9: on a diagonal call with a supplied nonzero bandwidth, the RBF kernel
returns the matrix `K[i,j] = exp(-D[i,j] / (2σ²))` with
`D[i,j] = G[i,i] − 2·G[i,j] + G[j,j]`, `G = X·Xᵀ` (the matrix `sqdist X`);
every entry lies in `(0, 1]` and every diagonal entry equals `1`. -/
theorem C9_rbf_supplied_sigma {n p : ℕ} (X : Matrix (Fin n) (Fin p) ℝ)
    (s : ℝ) (hs : s ≠ 0) :
    ∃ K : Matrix (Fin n) (Fin n) ℝ,
      rbf X X (some s) = some K ∧
      (∀ i j, K i j = Real.exp (-(sqdist X i j) / (2 * s ^ 2))) ∧
      (∀ i j, 0 < K i j ∧ K i j ≤ 1) ∧
      (∀ i, K i i = 1) := by
  refine ⟨Matrix.of fun i j =>
    Real.exp (-(sqdist X i j) / (2 * s ^ 2)), ?_, fun i j => rfl, ?_, ?_⟩
  · simp only [rbf]
    rw [KX_eq_sqdist, if_neg (mul_ne_zero hs hs)]
    congr 1
    ext i j
    simp only [Matrix.of_apply]
    rw [scale_algebra _ _ hs]
  · intro i j
    simp only [Matrix.of_apply]
    refine ⟨Real.exp_pos _, ?_⟩
    rw [Real.exp_le_one_iff]
    apply div_nonpos_of_nonpos_of_nonneg
    · simpa using sqdist_nonneg X i j
    · positivity
  · intro i
    simp [Matrix.of_apply, sqdist_diag]

/-- Witness for C9 at a concrete input: the 1×1 matrix `[[0]]` with `σ = 1`. -/
theorem C9_rbf_supplied_sigma_witness :
    ∃ K : Matrix (Fin 1) (Fin 1) ℝ,
      rbf (Matrix.of ![![(0 : ℝ)]]) (Matrix.of ![![(0 : ℝ)]]) (some 1) = some K ∧
      (∀ i j, K i j = Real.exp (-(sqdist (Matrix.of ![![(0 : ℝ)]]) i j) /
        (2 * (1 : ℝ) ^ 2))) ∧
      (∀ i j, 0 < K i j ∧ K i j ≤ 1) ∧
      (∀ i, K i i = 1) :=
  C9_rbf_supplied_sigma (Matrix.of ![![(0 : ℝ)]]) 1 (by norm_num)

/-- Over the reals the conjugate transpose is the plain transpose. -/
lemma conjT_eq_transpose {a b : ℕ} (M : Matrix (Fin a) (Fin b) ℝ) :
    Mᴴ = Mᵀ := by
  ext i j
  simp [Matrix.conjTranspose_apply, Matrix.transpose_apply]

/-- The centering matrix is symmetric. -/
lemma centerH_conjT (n : ℕ) : (centerH n)ᴴ = centerH n := by
  ext i j
  simp [centerH, Matrix.conjTranspose_apply, Matrix.sub_apply,
    Matrix.smul_apply, Matrix.one_apply, eq_comm]

/-- The all-ones matrix squares to `n` times itself. -/
lemma ones_mul_ones (n : ℕ) :
    (Matrix.of (fun _ _ => (1 : ℝ)) : Matrix (Fin n) (Fin n) ℝ) *
      Matrix.of (fun _ _ => (1 : ℝ)) = (n : ℝ) • Matrix.of (fun _ _ => (1 : ℝ)) := by
  ext i j
  simp [Matrix.mul_apply, Matrix.smul_apply]

/-- The centering matrix is idempotent (for `n ≥ 1`). -/
lemma centerH_idem {n : ℕ} (hn : 1 ≤ n) :
    centerH n * centerH n = centerH n := by
  have hne : (n : ℝ) ≠ 0 := Nat.cast_ne_zero.mpr (by omega)
  have hc : (n : ℝ)⁻¹ * (n : ℝ)⁻¹ * (n : ℝ) = (n : ℝ)⁻¹ := by
    rw [mul_assoc, inv_mul_cancel₀ hne, mul_one]
  unfold centerH
  rw [Matrix.sub_mul, Matrix.one_mul, Matrix.mul_sub, Matrix.mul_one,
    Matrix.smul_mul, Matrix.mul_smul, ones_mul_ones, smul_smul, smul_smul, hc]
  abel

/-- Centering with one `H` on each side can be rewritten as conjugation by
`H` on both factors, thanks to idempotence of `H`. -/
lemma trace_center {n : ℕ} (hn : 1 ≤ n) (K L : Matrix (Fin n) (Fin n) ℝ) :
    Matrix.trace ((K * centerH n) * (L * centerH n)) =
      Matrix.trace ((centerH n * K * centerH n) * (centerH n * L * centerH n)) := by
  have hH : centerH n * centerH n = centerH n := centerH_idem hn
  have hH2 : ∀ M : Matrix (Fin n) (Fin n) ℝ,
      centerH n * (centerH n * M) = centerH n * M := by
    intro M
    rw [← Matrix.mul_assoc, hH]
  have e1 : (centerH n * K * centerH n) * (centerH n * L * centerH n) =
      centerH n * ((K * centerH n) * (L * centerH n)) := by
    simp only [Matrix.mul_assoc]
    rw [hH2]
  rw [e1, Matrix.trace_mul_comm (centerH n) ((K * centerH n) * (L * centerH n))]
  simp only [Matrix.mul_assoc]
  rw [hH]

/-- Trace of `Mᴴ·M` is a sum of squares, hence nonnegative (real entries). -/
lemma trace_conjT_mul_self_nonneg {n : ℕ} (M : Matrix (Fin n) (Fin n) ℝ) :
    0 ≤ Matrix.trace (Mᴴ * M) := by
  rw [Matrix.trace]
  refine Finset.sum_nonneg fun i _ => ?_
  rw [Matrix.diag_apply, Matrix.mul_apply]
  refine Finset.sum_nonneg fun j _ => ?_
  simp only [Matrix.conjTranspose_apply, star_trivial]
  exact mul_self_nonneg _

/-- The trace of a product of two positive semidefinite real matrices is
nonnegative. -/
lemma trace_mul_nonneg {n : ℕ} {A B : Matrix (Fin n) (Fin n) ℝ}
    (hA : A.PosSemidef) (hB : B.PosSemidef) :
    0 ≤ Matrix.trace (A * B) := by
  obtain ⟨P, hP⟩ := Matrix.posSemidef_iff_eq_transpose_mul_self.mp hA
  obtain ⟨Q, hQ⟩ := Matrix.posSemidef_iff_eq_transpose_mul_self.mp hB
  have key : Matrix.trace (A * B) = Matrix.trace ((Q * Pᴴ)ᴴ * (Q * Pᴴ)) := by
    rw [hP, hQ]
    rw [Matrix.conjTranspose_mul, Matrix.conjTranspose_conjTranspose]
    calc Matrix.trace ((Pᴴ * P) * (Qᴴ * Q))
        = Matrix.trace (Pᴴ * (P * (Qᴴ * Q))) := by rw [Matrix.mul_assoc]
      _ = Matrix.trace ((P * (Qᴴ * Q)) * Pᴴ) := Matrix.trace_mul_comm _ _
      _ = Matrix.trace ((P * Qᴴ) * (Q * Pᴴ)) := by
          simp only [Matrix.mul_assoc]
  rw [key]
  exact trace_conjT_mul_self_nonneg _

/-- Cauchy–Schwarz for the trace inner product of symmetric real matrices. -/
lemma trace_cauchy_schwarz {n : ℕ} (A B : Matrix (Fin n) (Fin n) ℝ)
    (hA : Aᵀ = A) (hB : Bᵀ = B) :
    Matrix.trace (A * B) ^ 2 ≤
      Matrix.trace (A * A) * Matrix.trace (B * B) := by
  have expand : ∀ (M N : Matrix (Fin n) (Fin n) ℝ), Nᵀ = N →
      Matrix.trace (M * N) = ∑ ij : Fin n × Fin n, M ij.1 ij.2 * N ij.1 ij.2 := by
    intro M N hN
    rw [Matrix.trace, Fintype.sum_prod_type]
    refine Finset.sum_congr rfl fun i _ => ?_
    rw [Matrix.diag_apply, Matrix.mul_apply]
    refine Finset.sum_congr rfl fun j _ => ?_
    have hsw : N j i = N i j := by
      have h0 : N j i = Nᵀ i j := rfl
      rw [hN] at h0
      exact h0
    rw [hsw]
  rw [expand A B hB, expand A A hA, expand B B hB]
  have h := Finset.sum_mul_sq_le_sq_mul_sq Finset.univ
    (fun ij : Fin n × Fin n => A ij.1 ij.2) (fun ij : Fin n × Fin n => B ij.1 ij.2)
  calc (∑ ij : Fin n × Fin n, A ij.1 ij.2 * B ij.1 ij.2) ^ 2
      ≤ (∑ ij : Fin n × Fin n, A ij.1 ij.2 ^ 2) *
        (∑ ij : Fin n × Fin n, B ij.1 ij.2 ^ 2) := h
    _ = (∑ ij : Fin n × Fin n, A ij.1 ij.2 * A ij.1 ij.2) *
        (∑ ij : Fin n × Fin n, B ij.1 ij.2 * B ij.1 ij.2) := by
          simp only [sq]

/-- Gram matrices of the linear kernel are positive semidefinite, so the
positive-semidefiniteness hypotheses of the bounded-range theorem hold for
the notebook's default kernel. -/
lemma linear_gram_psd {n p : ℕ} (X : Matrix (Fin n) (Fin p) ℝ) :
    (X * Xᵀ).PosSemidef := by
  have h := Matrix.posSemidef_self_mul_conjTranspose X
  rwa [conjT_eq_transpose] at h

/-- C8: bounded range.  For any kernel whose Gram matrices `K`, `L` on
`(X, X)` and `(Y, Y)` are positive semidefinite (as the linear and RBF
kernels produce) and whose variances are strictly positive (non-degenerate
inputs), `CKA` returns exactly the raw quotient
`HSIC(K,L) / (√HSIC(K,K)·√HSIC(L,L))` — no clamping — and that value lies
in `[0, 1]`, by nonnegativity and Cauchy–Schwarz of the centered trace
inner product. -/
theorem C8_bounded_range {n p q : ℕ} (X : Matrix (Fin n) (Fin p) ℝ)
    (Y : Matrix (Fin n) (Fin q) ℝ) (k : KernelFn)
    (K L : Matrix (Fin n) (Fin n) ℝ)
    (hK : k n p X X = some K) (hL : k n q Y Y = some L)
    (hKpsd : K.PosSemidef) (hLpsd : L.PosSemidef)
    (vK vL : ℝ) (hvK : HSIC K K = some vK) (hvL : HSIC L L = some vL)
    (hvKpos : 0 < vK) (hvLpos : 0 < vL) :
    ∃ hs : ℝ, HSIC K L = some hs ∧
      CKA X Y (some k) = some (hs / (Real.sqrt vK * Real.sqrt vL)) ∧
      0 ≤ hs / (Real.sqrt vK * Real.sqrt vL) ∧
      hs / (Real.sqrt vK * Real.sqrt vL) ≤ 1 := by
  obtain ⟨hn2, hvKeq⟩ := HSIC_eq_some hvK
  obtain ⟨-, hvLeq⟩ := HSIC_eq_some hvL
  have hn1 : 1 ≤ n := by omega
  have hmu : 0 < (((n - 1) ^ 2 : ℕ) : ℝ) := by
    have : 0 < (n - 1) ^ 2 := pow_pos (by omega) 2
    exact_mod_cast this
  have hHL := HSIC_eq K L hn2
  refine ⟨_, hHL, CKA_run X Y k K L _ vK vL hK hL hHL hvK hvL, ?_, ?_⟩
  · -- nonnegativity of the quotient
    have hApsd : (centerH n * K * centerH n).PosSemidef := by
      have h := hKpsd.mul_mul_conjTranspose_same (centerH n)
      rwa [centerH_conjT] at h
    have hBpsd : (centerH n * L * centerH n).PosSemidef := by
      have h := hLpsd.mul_mul_conjTranspose_same (centerH n)
      rwa [centerH_conjT] at h
    have htr : 0 ≤ Matrix.trace ((K * centerH n) * (L * centerH n)) := by
      rw [trace_center hn1]
      exact trace_mul_nonneg hApsd hBpsd
    have hs0 : 0 ≤ (((n - 1) ^ 2 : ℕ) : ℝ)⁻¹ *
        Matrix.trace ((K * centerH n) * (L * centerH n)) :=
      mul_nonneg (inv_nonneg.mpr hmu.le) htr
    exact div_nonneg hs0 (mul_nonneg (Real.sqrt_nonneg _) (Real.sqrt_nonneg _))
  · -- upper bound 1 via Cauchy-Schwarz
    have hApsd : (centerH n * K * centerH n).PosSemidef := by
      have h := hKpsd.mul_mul_conjTranspose_same (centerH n)
      rwa [centerH_conjT] at h
    have hBpsd : (centerH n * L * centerH n).PosSemidef := by
      have h := hLpsd.mul_mul_conjTranspose_same (centerH n)
      rwa [centerH_conjT] at h
    have hAt : (centerH n * K * centerH n)ᵀ = centerH n * K * centerH n := by
      rw [← conjT_eq_transpose]
      exact hApsd.isHermitian
    have hBt : (centerH n * L * centerH n)ᵀ = centerH n * L * centerH n := by
      rw [← conjT_eq_transpose]
      exact hBpsd.isHermitian
    have htr : 0 ≤ Matrix.trace ((K * centerH n) * (L * centerH n)) := by
      rw [trace_center hn1]
      exact trace_mul_nonneg hApsd hBpsd
    have hs0 : 0 ≤ (((n - 1) ^ 2 : ℕ) : ℝ)⁻¹ *
        Matrix.trace ((K * centerH n) * (L * centerH n)) :=
      mul_nonneg (inv_nonneg.mpr hmu.le) htr
    have hcs := trace_cauchy_schwarz _ _ hAt hBt
    have hsq : ((((n - 1) ^ 2 : ℕ) : ℝ)⁻¹ *
        Matrix.trace ((K * centerH n) * (L * centerH n))) ^ 2 ≤ vK * vL := by
      rw [hvKeq, hvLeq]
      rw [trace_center hn1 K L, trace_center hn1 K K, trace_center hn1 L L]
      calc ((((n - 1) ^ 2 : ℕ) : ℝ)⁻¹ *
            Matrix.trace ((centerH n * K * centerH n) * (centerH n * L * centerH n))) ^ 2
          = ((((n - 1) ^ 2 : ℕ) : ℝ)⁻¹) ^ 2 *
            Matrix.trace ((centerH n * K * centerH n) * (centerH n * L * centerH n)) ^ 2 := by
              ring
        _ ≤ ((((n - 1) ^ 2 : ℕ) : ℝ)⁻¹) ^ 2 *
            (Matrix.trace ((centerH n * K * centerH n) * (centerH n * K * centerH n)) *
             Matrix.trace ((centerH n * L * centerH n) * (centerH n * L * centerH n))) := by
              exact mul_le_mul_of_nonneg_left hcs (by positivity)
        _ = ((((n - 1) ^ 2 : ℕ) : ℝ)⁻¹ *
              Matrix.trace ((centerH n * K * centerH n) * (centerH n * K * centerH n))) *
            ((((n - 1) ^ 2 : ℕ) : ℝ)⁻¹ *
              Matrix.trace ((centerH n * L * centerH n) * (centerH n * L * centerH n))) := by
              ring
    have hdenpos : 0 < Real.sqrt vK * Real.sqrt vL :=
      mul_pos (Real.sqrt_pos.mpr hvKpos) (Real.sqrt_pos.mpr hvLpos)
    rw [div_le_one hdenpos]
    have hle : (((n - 1) ^ 2 : ℕ) : ℝ)⁻¹ *
        Matrix.trace ((K * centerH n) * (L * centerH n)) ≤
        Real.sqrt (vK * vL) := by
      rw [Real.le_sqrt hs0 (by positivity)]
      exact hsq
    rwa [Real.sqrt_mul hvKpos.le] at hle

/-- Witness for C8 at a concrete input: the 2×2 identity data matrix against
itself with the linear kernel, whose Gram matrix is the identity. -/
theorem C8_bounded_range_witness :
    ∃ hs : ℝ, HSIC (1 : Matrix (Fin 2) (Fin 2) ℝ) 1 = some hs ∧
      CKA (Matrix.of ![![(1 : ℝ), 0], ![0, 1]])
        (Matrix.of ![![(1 : ℝ), 0], ![0, 1]]) (some linearK) =
        some (hs / (Real.sqrt 1 * Real.sqrt 1)) ∧
      0 ≤ hs / (Real.sqrt 1 * Real.sqrt 1) ∧
      hs / (Real.sqrt 1 * Real.sqrt 1) ≤ 1 :=
  C8_bounded_range _ _ linearK 1 1 id_linearK id_linearK
    Matrix.PosSemidef.one Matrix.PosSemidef.one 1 1
    HSIC_one_two HSIC_one_two (by norm_num) (by norm_num)

end CKAModel
